import Mathlib

/-!
Verification of the backup retention and period-matching engine of
`heroku-mongodump-to-s3` (`archive-database-backup.py`, `mongodump-to-s3.py`).

Object-store keys are modelled as `List Char`; the object store itself as the
point-in-time listing `List (List Char)` in listing order.  `bucket.list(p)`
is the sublist of keys starting with the text `p`, `bucket.delete_key`
removes a key, `copy`/upload insert a key.

`datetime.strptime(s, fmt)` for the fixed format `'%Y-%m-%d_%H-%M-%S.gz'`
(optionally preceded by a literal directory part) is modelled exactly,
including CPython's per-directive regexes (e.g. `%m` accepts `3` as well as
`03`, `%S` accepts `60`/`61` at the regex level and then fails datetime
validation), the full-match requirement, and the final calendar validation
performed by the `datetime` constructor.  Literal format characters are
matched exactly (CPython additionally collapses whitespace runs, which no
claim exercises; this affects both duplicated implementations identically).
-/

/-- A key in the object store, in listing order context. -/
abbrev Str := List Char

/-- A calendar timestamp, second granularity, as carried by `datetime`. -/
structure Timestamp where
  year : Nat
  month : Nat
  day : Nat
  hour : Nat
  minute : Nat
  second : Nat
deriving DecidableEq

/-- Leap-year rule used by `datetime` (proleptic Gregorian). -/
def isLeapYear (y : Nat) : Bool :=
  y % 4 == 0 && (y % 100 != 0 || y % 400 == 0)

/-- Days in a month, as validated by the `datetime` constructor. -/
def daysInMonth (y m : Nat) : Nat :=
  if m = 2 then (if isLeapYear y then 29 else 28)
  else if m = 4 ∨ m = 6 ∨ m = 9 ∨ m = 11 then 30
  else 31

/-- The domain of timestamps `datetime.strftime` accepts in Python 2.7
(year at least 1900) and that `datetime` itself represents (year at most
9999), with all fields in range. -/
def Timestamp.Valid (t : Timestamp) : Prop :=
  1900 ≤ t.year ∧ t.year ≤ 9999 ∧ 1 ≤ t.month ∧ t.month ≤ 12 ∧
  1 ≤ t.day ∧ t.day ≤ daysInMonth t.year t.month ∧
  t.hour ≤ 23 ∧ t.minute ≤ 59 ∧ t.second ≤ 59

instance (t : Timestamp) : Decidable t.Valid := by
  unfold Timestamp.Valid; infer_instance

/-- Order-preserving encoding of a timestamp into one natural number.
On field-bounded timestamps (every timestamp produced by the parser below)
this encoding orders exactly like chronological `datetime` comparison,
which compares the six fields lexicographically. -/
def Timestamp.code (t : Timestamp) : Nat :=
  ((((t.year * 13 + t.month) * 32 + t.day) * 24 + t.hour) * 60 + t.minute) * 60
    + t.second

/-- The decimal digit character for `d` (callers keep `d ≤ 9`). -/
def dig (d : Nat) : Char :=
  if d = 0 then '0' else if d = 1 then '1' else if d = 2 then '2'
  else if d = 3 then '3' else if d = 4 then '4' else if d = 5 then '5'
  else if d = 6 then '6' else if d = 7 then '7' else if d = 8 then '8'
  else '9'

/-- Numeric value of a digit character. -/
def digitVal (c : Char) : Nat := c.toNat - 48

/-- Value of a string of digit characters, most significant first. -/
def natOfDigits (ds : Str) : Nat := ds.foldl (fun a c => a * 10 + digitVal c) 0

/-- Two-digit zero-padded rendering (`strftime` `%m`, `%d`, `%H`, `%M`, `%S`). -/
def pad2 (n : Nat) : Str := [dig (n / 10), dig (n % 10)]

/-- Four-digit rendering of a year (`strftime` `%Y`; Python 2.7 rejects
years below 1900, so the rendering is always exactly four digits). -/
def pad4 (n : Nat) : Str :=
  [dig (n / 1000), dig (n / 100 % 10), dig (n / 10 % 10), dig (n % 10)]

/-- `now.strftime(BACKUP_FILENAME_FORMAT)` with
`BACKUP_FILENAME_FORMAT = '%Y-%m-%d_%H-%M-%S.gz'`
(`gzip_mongodump`, and the constant at the top of both scripts). -/
def formatTs (t : Timestamp) : Str :=
  pad4 t.year ++ '-' :: (pad2 t.month ++ '-' :: (pad2 t.day ++ '_' ::
    (pad2 t.hour ++ '-' :: (pad2 t.minute ++ '-' ::
      (pad2 t.second ++ ['.', 'g', 'z'])))))

/-- Consume one expected literal character (a literal in the strptime
format string must match exactly). -/
def expectChar (c : Char) : Str → Option Str
  | [] => none
  | x :: rest => if x = c then some rest else none

/-- One numeric strptime directive among `%m %d %H %M %S`.  CPython compiles
these to regexes that accept one or two digits within a range; since every
such directive in the format is followed by a non-digit literal, the regex
(with backtracking) accepts exactly: the maximal digit run has length 1 or 2
and its value lies in `[lo, hi]`. -/
def parseField (lo hi : Nat) (cs : Str) : Option (Nat × Str) :=
  let ds := cs.takeWhile Char.isDigit
  let rest := cs.dropWhile Char.isDigit
  if (ds.length = 1 ∨ ds.length = 2) ∧ lo ≤ natOfDigits ds ∧ natOfDigits ds ≤ hi
  then some (natOfDigits ds, rest)
  else none

/-- `datetime.strptime(s, '%Y-%m-%d_%H-%M-%S.gz')`, returning `none` where
CPython raises `ValueError` (regex mismatch, unconverted trailing data, or
`datetime` constructor validation: year 0, day beyond month length,
second 60/61). `%Y` is exactly four digits; field ranges follow CPython's
`_strptime` regexes (`%d` up to 31, `%H` up to 23, `%M` up to 59, `%S` up
to 61 at the regex level). -/
def strptimeGz (cs : Str) : Option Timestamp :=
  (if (cs.takeWhile Char.isDigit).length = 4 then
      some (natOfDigits (cs.takeWhile Char.isDigit), cs.dropWhile Char.isDigit)
    else none).bind fun yr =>
  (expectChar '-' yr.2).bind fun r2 =>
  (parseField 1 12 r2).bind fun mr =>
  (expectChar '-' mr.2).bind fun r4 =>
  (parseField 1 31 r4).bind fun dr =>
  (expectChar '_' dr.2).bind fun r6 =>
  (parseField 0 23 r6).bind fun hr =>
  (expectChar '-' hr.2).bind fun r8 =>
  (parseField 0 59 r8).bind fun mir =>
  (expectChar '-' mir.2).bind fun r10 =>
  (parseField 0 61 r10).bind fun sr =>
  (expectChar '.' sr.2).bind fun r12 =>
  (expectChar 'g' r12).bind fun r13 =>
  (expectChar 'z' r13).bind fun r14 =>
  if r14 = [] ∧ 1 ≤ yr.1 ∧ dr.1 ≤ daysInMonth yr.1 mr.1 ∧ sr.1 ≤ 59 then
    some ⟨yr.1, mr.1, dr.1, hr.1, mir.1, sr.1⟩
  else none

/-- A parsed backup: the namedtuple `Backup(key, date)` of both scripts. -/
structure Backup where
  key : Str
  date : Timestamp
deriving DecidableEq

/-- Parse one listed key against the qualified filename format
`fmtPre ++ '%Y-%m-%d_%H-%M-%S.gz'`, where `fmtPre` is the literal directory
part of the format string (empty, or ending in `'/'`).  This is the
`try: strptime(key.key, filename_format) except ValueError: pass` step of
both `remove_old_backups` implementations. -/
def parseBackupKey (fmtPre : Str) (key : Str) : Option Backup :=
  if fmtPre.isPrefixOf key then
    (strptimeGz (key.drop fmtPre.length)).map fun t => ⟨key, t⟩
  else none

/-- `s.rstrip('/')`: drop every trailing `'/'`. -/
def dropTrailingSlashes (s : Str) : Str :=
  (s.reverse.dropWhile (fun c => c = '/')).reverse

/-- `s.lstrip('/')`: drop every leading `'/'`. -/
def dropLeadingSlashes (s : Str) : Str := s.dropWhile (fun c => c = '/')

/-- Literal directory part of the strptime format in
`archive-database-backup.py`'s `remove_old_backups`:
`'%s/%s' % (backup_prefix.rstrip('/'), BACKUP_FILENAME_FORMAT)` when the
given directory text is non-empty, else the bare format. -/
def fmtPreA (pfx : Str) : Str :=
  if pfx = [] then [] else dropTrailingSlashes pfx ++ ['/']

/-- Literal directory part of the strptime format in
`mongodump-to-s3.py`'s `remove_old_backups`:
`'%s/%s' % (backup_prefix, BACKUP_FILENAME_FORMAT)` when non-empty — note
the missing `rstrip('/')` compared with the archive script. -/
def fmtPreM (pfx : Str) : Str :=
  if pfx = [] then [] else pfx ++ ['/']

/-- `bucket.list(prefix=pfx)`: all stored keys starting with the text
`pfx`, in listing order. -/
def listKeys (pfx : Str) (store : List Str) : List Str :=
  store.filter fun k => pfx.isPrefixOf k

/-- The `all_backups` aggregation loop of `remove_old_backups`: parse every
listed key, silently dropping the ones `strptime` rejects. -/
def allBackups (fmtPre : Str) (listing : List Str) : List Backup :=
  listing.filterMap (parseBackupKey fmtPre)

/-- The sort key of `all_backups.sort(key=lambda x: x.date, reverse=True)`:
`a` may sit before `b` iff `a`'s date is not older.  Python's sort is
stable, as is `List.insertionSort`. -/
def backupGe (a b : Backup) : Prop := b.date.code ≤ a.date.code

instance : DecidableRel backupGe := fun a b => Nat.decLe _ _

instance : IsTotal Backup backupGe := ⟨fun a b => by unfold backupGe; omega⟩

instance : IsTrans Backup backupGe := ⟨fun a b c => by unfold backupGe; omega⟩

/-- Reverse-chronological stable sort of the parsed backups. -/
def sortBackups (l : List Backup) : List Backup := l.insertionSort backupGe

/-- Python's `l[k:]` for an `int` `k` (negative `k` counts from the end). -/
def pySuffix (k : Int) (l : List α) : List α :=
  if 0 ≤ k then l.drop k.toNat else l.drop (l.length - (-k).toNat)

/-- Result of `remove_old_backups`: the returned `removed_backups` list and
the store after the per-key `bucket.delete_key` calls. -/
structure PruneResult where
  removed : List Backup
  store : List Str
deriving DecidableEq

/-- Shared body of both `remove_old_backups` implementations, parameterised
by the literal directory part of the strptime format (the only point where
the two scripts differ).  Lists keys under `pfx`, parses each, sorts in
reverse chronological order, keeps the first `maxB` entries and deletes the
rest, returning the deleted records. -/
def removeOldCore (fmtPre pfx : Str) (maxB : Int) (store : List Str) :
    PruneResult :=
  let sorted := sortBackups (allBackups fmtPre (listKeys pfx store))
  let removed := pySuffix maxB sorted
  ⟨removed, store.filter fun k => removed.all fun b => decide (b.key ≠ k)⟩

/-- `remove_old_backups(bucket, max_backups, backup_prefix)` of
`archive-database-backup.py` (lines 105–134). -/
def removeOldBackupsA (maxB : Int) (pfx : Str) (store : List Str) :
    PruneResult :=
  removeOldCore (fmtPreA pfx) pfx maxB store

/-- `remove_old_backups(s3_conn, bucket_name, max_backups, backup_prefix)`
of `mongodump-to-s3.py` (lines 207–238). -/
def removeOldBackupsM (maxB : Int) (pfx : Str) (store : List Str) :
    PruneResult :=
  removeOldCore (fmtPreM pfx) pfx maxB store

/-- The `mode` command-line argument (`choices=['daily', 'monthly']`). -/
inductive Mode
  | daily
  | monthly
deriving DecidableEq

/-- The fixed text at the front of the period regex, after the directory
part: for daily `'%Y-%m-%d_'` of `now`, for monthly `'%Y-%m-'` of `now`
(`get_backup_from_this_period`, pattern construction, lines 87–95). -/
def periodLit (mode : Mode) (now : Timestamp) : Str :=
  match mode with
  | .daily =>
      pad4 now.year ++ '-' :: (pad2 now.month ++ '-' :: (pad2 now.day ++ ['_']))
  | .monthly => pad4 now.year ++ '-' :: (pad2 now.month ++ ['-'])

/-- The wildcard tail of the period regex after `periodLit`: for daily
`\d{2}-\d{2}-\d{2}.gz`, for monthly `\d{2}_\d{2}-\d{2}-\d{2}.gz`.  The `.`
before `gz` is an unescaped regex dot (any character except newline), and
`re.match` anchors at the start only, so arbitrary trailing characters are
accepted. -/
def tailPatDaily (cs : Str) : Bool :=
  match cs with
  | x1 :: x2 :: x3 :: x4 :: x5 :: x6 :: x7 :: x8 :: c :: g :: z :: _ =>
      x1.isDigit && x2.isDigit && decide (x3 = '-') &&
        x4.isDigit && x5.isDigit && decide (x6 = '-') &&
        x7.isDigit && x8.isDigit && decide (c ≠ '\n') &&
        decide (g = 'g') && decide (z = 'z')
  | _ => false

def tailPatMonthly (cs : Str) : Bool :=
  match cs with
  | y1 :: y2 :: y3 :: x1 :: x2 :: x3 :: x4 :: x5 :: x6 :: x7 :: x8 ::
      c :: g :: z :: _ =>
      y1.isDigit && y2.isDigit && decide (y3 = '_') &&
        x1.isDigit && x2.isDigit && decide (x3 = '-') &&
        x4.isDigit && x5.isDigit && decide (x6 = '-') &&
        x7.isDigit && x8.isDigit && decide (c ≠ '\n') &&
        decide (g = 'g') && decide (z = 'z')
  | _ => false

def tailPat (mode : Mode) (cs : Str) : Bool :=
  match mode with
  | .daily => tailPatDaily cs
  | .monthly => tailPatMonthly cs

/-- `re.match(pattern, key.name)` for the period pattern built over
directory `dir`: the key must start with `dir`, then the fixed date text of
`now`, then the wildcard tail; anything may follow. -/
def matchesPeriod (mode : Mode) (now : Timestamp) (dir : Str) (key : Str) :
    Bool :=
  let pre := dir ++ periodLit mode now
  pre.isPrefixOf key && tailPat mode (key.drop pre.length)

/-- `get_backup_from_this_period(bucket, dir_name, mode)` (lines 84–103):
scan the listing under `dir` in order and return the first key the period
pattern matches, else `None`. -/
def getBackupFromThisPeriod (mode : Mode) (now : Timestamp) (dir : Str)
    (store : List Str) : Option Str :=
  (listKeys dir store).find? (matchesPeriod mode now dir)

/-- Worker for `reSub`, structurally recursive on a fuel bound. -/
def reSubAux (pat rep : Str) : Nat → Str → Str
  | _, [] => []
  | 0, s => s
  | fuel + 1, c :: rest =>
    if pat ≠ [] ∧ pat.isPrefixOf (c :: rest) = true then
      rep ++ reSubAux pat rep fuel ((c :: rest).drop pat.length)
    else
      c :: reSubAux pat rep fuel rest

/-- `re.sub(pat, rep, s)` for a pattern without regex metacharacters:
replace every leftmost non-overlapping occurrence of `pat` in `s` by `rep`.
The fuel argument (the length of the remaining text) only serves structural
termination; it never runs out.  (`main` calls this with the normalized
source directory, which is non-empty; the directories exercised by the
claims contain no metacharacters.) -/
def reSub (pat rep s : Str) : Str := reSubAux pat rep s.length s

/-- `bucket.copy(...)` / `Key.set_contents_from_filename(...)`: the store
gains the key (an existing key is overwritten in place). -/
def copyKey (store : List Str) (k : Str) : List Str :=
  if k ∈ store then store else store ++ [k]

/-- Outcome of one run of `archive-database-backup.py`'s `main`. -/
structure ArchiveResult where
  exit : Nat
  copied : Option (Str × Str)
  removed : List Backup
  store : List Str
deriving DecidableEq

/-- `main` of `archive-database-backup.py` (lines 24–82), after argument
parsing and S3 connection: normalize the two directories, look for a
current-period backup in the destination (no-op success if found), then in
the source (failure if absent), otherwise copy the found key to
`re.sub(source_dir, dest_dir, name)` and, when `max_backups > 0`, prune the
destination directory. -/
def mainArchive (mode : Mode) (now : Timestamp) (srcDir dstDir : Str)
    (maxB : Int) (store : List Str) : ArchiveResult :=
  let src := dropTrailingSlashes srcDir ++ ['/']
  let dst := dropTrailingSlashes dstDir ++ ['/']
  match getBackupFromThisPeriod mode now dst store with
  | some _ => ⟨0, none, [], store⟩
  | none =>
    match getBackupFromThisPeriod mode now src store with
    | none => ⟨1, none, [], store⟩
    | some k =>
      let destName := reSub src dst k
      let store1 := copyKey store destName
      if 0 < maxB then
        let pr := removeOldBackupsA maxB dst store1
        ⟨0, some (k, destName), pr.removed, pr.store⟩
      else
        ⟨0, some (k, destName), [], store1⟩

/-- `os.path.join(a, b).lstrip('/')` for the upload key of
`upload_mongodump_to_s3` (`b` is a `strftime` filename, never absolute). -/
def uploadKeyOf (pfx : Str) (filename : Str) : Str :=
  dropLeadingSlashes
    (if pfx = [] then filename
     else if pfx.getLast? = some '/' then pfx ++ filename
     else pfx ++ '/' :: filename)

/-- Outcome of the S3-visible part of one run of `mongodump-to-s3.py`. -/
structure DumpResult where
  removed : List Backup
  store : List Str
deriving DecidableEq

/-- `main` of `mongodump-to-s3.py` (lines 26–132), restricted to its
object-store effects (the dump and gzip steps are external collaborators):
upload the freshly produced `now.strftime('%Y-%m-%d_%H-%M-%S.gz')` under
the backup directory text, then prune when `max_backups > 0`. -/
def mainMongodump (now : Timestamp) (pfx : Str) (maxB : Int)
    (store : List Str) : DumpResult :=
  let store1 := copyKey store (uploadKeyOf pfx (formatTs now))
  if 0 < maxB then
    let pr := removeOldBackupsM maxB pfx store1
    ⟨pr.removed, pr.store⟩
  else
    ⟨[], store1⟩

/-! ### Basic helper lemmas -/

lemma isPrefixOf_append (l t : Str) : l.isPrefixOf (l ++ t) = true := by
  induction l with
  | nil => simp
  | cons c cs ih => simpa [List.isPrefixOf_cons₂] using ih

lemma isPrefixOf_iff_exists (l : Str) :
    ∀ k : Str, l.isPrefixOf k = true ↔ ∃ t, k = l ++ t := by
  induction l with
  | nil => intro k; simp
  | cons c cs ih =>
    intro k
    cases k with
    | nil => simp
    | cons b bs =>
      rw [List.isPrefixOf_cons₂]
      constructor
      · intro h
        have hcb : c = b := by
          have := (Bool.and_eq_true _ _).mp h |>.1
          exact eq_of_beq this
        obtain ⟨t, ht⟩ := (ih bs).mp ((Bool.and_eq_true _ _).mp h).2
        exact ⟨t, by simp [hcb, ht]⟩
      · rintro ⟨t, ht⟩
        obtain ⟨hb, hbs⟩ := List.cons.injEq .. ▸ ht  -- placeholder
        exact Bool.and_eq_true _ _ |>.mpr ⟨beq_iff_eq.mpr hb.symm, (ih bs).mpr ⟨t, hbs⟩⟩

lemma find?_decomp (p : α → Bool) :
    ∀ (l : List α) (k : α), l.find? p = some k ↔
      ∃ l1 l2, l = l1 ++ k :: l2 ∧ p k = true ∧ ∀ x ∈ l1, p x = false := by
  intro l
  induction l with
  | nil =>
    intro k
    constructor
    · intro h; simp at h
    · rintro ⟨l1, l2, h, -, -⟩
      exact absurd h (by cases l1 <;> simp)
  | cons a t ih =>
    intro k
    by_cases hpa : p a = true
    · rw [List.find?_cons_of_pos t hpa]
      constructor
      · intro h
        obtain rfl : a = k := by simpa using h
        exact ⟨[], t, rfl, hpa, by simp⟩
      · rintro ⟨l1, l2, heq, hk, hall⟩
        cases l1 with
        | nil =>
          simp only [List.nil_append, List.cons.injEq] at heq
          simp [heq.1]
        | cons b l1' =>
          simp only [List.cons_append, List.cons.injEq] at heq
          exact absurd hpa (by rw [heq.1]; simp [hall b (by simp)])
    · have hpa' : p a = false := by simpa using hpa
      rw [List.find?_cons_of_neg t (by simp [hpa'])]
      rw [ih k]
      constructor
      · rintro ⟨l1, l2, heq, hk, hall⟩
        refine ⟨a :: l1, l2, by simp [heq], hk, ?_⟩
        intro x hx
        rcases List.mem_cons.mp hx with rfl | hx'
        · exact hpa'
        · exact hall x hx'
      · rintro ⟨l1, l2, heq, hk, hall⟩
        cases l1 with
        | nil =>
          simp only [List.nil_append, List.cons.injEq] at heq
          exact absurd hk (by rw [← heq.1]; simp [hpa'])
        | cons b l1' =>
          simp only [List.cons_append, List.cons.injEq] at heq
          exact ⟨l1', l2, heq.2, hk, fun x hx => hall x (by simp [hx])⟩

/-! ### Branch lemmas for the archive orchestrator -/

lemma mainArchive_dst_some {mode : Mode} {now : Timestamp}
    {srcDir dstDir : Str} {maxB : Int} {store : List Str} {b : Str}
    (hd : getBackupFromThisPeriod mode now (dropTrailingSlashes dstDir ++ ['/'])
        store = some b) :
    mainArchive mode now srcDir dstDir maxB store = ⟨0, none, [], store⟩ := by
  simp only [mainArchive, hd]

lemma mainArchive_no_match {mode : Mode} {now : Timestamp}
    {srcDir dstDir : Str} {maxB : Int} {store : List Str}
    (hd : getBackupFromThisPeriod mode now (dropTrailingSlashes dstDir ++ ['/'])
        store = none)
    (hs : getBackupFromThisPeriod mode now (dropTrailingSlashes srcDir ++ ['/'])
        store = none) :
    mainArchive mode now srcDir dstDir maxB store = ⟨1, none, [], store⟩ := by
  simp only [mainArchive, hd, hs]

lemma mainArchive_copy_pos {mode : Mode} {now : Timestamp}
    {srcDir dstDir : Str} {maxB : Int} {store : List Str} {k : Str}
    (hd : getBackupFromThisPeriod mode now (dropTrailingSlashes dstDir ++ ['/'])
        store = none)
    (hs : getBackupFromThisPeriod mode now (dropTrailingSlashes srcDir ++ ['/'])
        store = some k)
    (hmb : 0 < maxB) :
    mainArchive mode now srcDir dstDir maxB store =
      ⟨0,
       some (k, reSub (dropTrailingSlashes srcDir ++ ['/'])
         (dropTrailingSlashes dstDir ++ ['/']) k),
       (removeOldBackupsA maxB (dropTrailingSlashes dstDir ++ ['/'])
         (copyKey store (reSub (dropTrailingSlashes srcDir ++ ['/'])
           (dropTrailingSlashes dstDir ++ ['/']) k))).removed,
       (removeOldBackupsA maxB (dropTrailingSlashes dstDir ++ ['/'])
         (copyKey store (reSub (dropTrailingSlashes srcDir ++ ['/'])
           (dropTrailingSlashes dstDir ++ ['/']) k))).store⟩ := by
  simp only [mainArchive, hd, hs, if_pos hmb]

lemma mainArchive_copy_nonpos {mode : Mode} {now : Timestamp}
    {srcDir dstDir : Str} {maxB : Int} {store : List Str} {k : Str}
    (hd : getBackupFromThisPeriod mode now (dropTrailingSlashes dstDir ++ ['/'])
        store = none)
    (hs : getBackupFromThisPeriod mode now (dropTrailingSlashes srcDir ++ ['/'])
        store = some k)
    (hmb : ¬ 0 < maxB) :
    mainArchive mode now srcDir dstDir maxB store =
      ⟨0,
       some (k, reSub (dropTrailingSlashes srcDir ++ ['/'])
         (dropTrailingSlashes dstDir ++ ['/']) k),
       [],
       copyKey store (reSub (dropTrailingSlashes srcDir ++ ['/'])
         (dropTrailingSlashes dstDir ++ ['/']) k)⟩ := by
  simp only [mainArchive, hd, hs, if_neg hmb]

lemma mem_copyKey {store : List Str} {k d : Str} (h : k ∈ store) :
    k ∈ copyKey store d := by
  unfold copyKey
  split
  · exact h
  · simp [h]

/-! ### Claim theorems: control flow and configuration -/

/-- Claim C6: `get_backup_from_this_period` returns the first key of the
listing under the directory that the period pattern matches (first in
store-listing order, not the most recent), and `None` exactly when no
listed key matches. -/
theorem c6_first_match (mode : Mode) (now : Timestamp) (dir : Str)
    (store : List Str) :
    (∀ k, getBackupFromThisPeriod mode now dir store = some k ↔
       ∃ l1 l2, listKeys dir store = l1 ++ k :: l2 ∧
         matchesPeriod mode now dir k = true ∧
         ∀ x ∈ l1, matchesPeriod mode now dir x = false) ∧
    (getBackupFromThisPeriod mode now dir store = none ↔
       ∀ x ∈ listKeys dir store, matchesPeriod mode now dir x = false) := by
  constructor
  · intro k
    exact find?_decomp _ _ k
  · rw [getBackupFromThisPeriod, List.find?_eq_none]
    constructor
    · intro h x hx
      simpa using h x hx
    · intro h x hx
      simp [h x hx]

/-- Claim C8: with a configured maximum-backups value of 0, neither entry
point prunes: the returned removed-backups list is empty and every stored
key survives the run (the copy/upload steps may still add a key). -/
theorem c8_zero_max_backups (mode : Mode) (now : Timestamp)
    (srcDir dstDir pfx : Str) (store : List Str) :
    (mainArchive mode now srcDir dstDir 0 store).removed = [] ∧
    (∀ k ∈ store, k ∈ (mainArchive mode now srcDir dstDir 0 store).store) ∧
    (mainMongodump now pfx 0 store).removed = [] ∧
    (∀ k ∈ store, k ∈ (mainMongodump now pfx 0 store).store) := by
  have h0 : ¬ (0 : Int) < 0 := by omega
  have harch : ∀ P : ArchiveResult → Prop,
      (P ⟨0, none, [], store⟩) → (P ⟨1, none, [], store⟩) →
      (∀ k, P ⟨0,
        some (k, reSub (dropTrailingSlashes srcDir ++ ['/'])
          (dropTrailingSlashes dstDir ++ ['/']) k), [],
        copyKey store (reSub (dropTrailingSlashes srcDir ++ ['/'])
          (dropTrailingSlashes dstDir ++ ['/']) k)⟩) →
      P (mainArchive mode now srcDir dstDir 0 store) := by
    intro P h1 h2 h3
    cases hd : getBackupFromThisPeriod mode now
        (dropTrailingSlashes dstDir ++ ['/']) store with
    | some b => rw [mainArchive_dst_some hd]; exact h1
    | none =>
      cases hs : getBackupFromThisPeriod mode now
          (dropTrailingSlashes srcDir ++ ['/']) store with
      | none => rw [mainArchive_no_match hd hs]; exact h2
      | some k => rw [mainArchive_copy_nonpos hd hs h0]; exact h3 k
  refine ⟨?_, ?_, ?_, ?_⟩
  · exact harch (fun r => r.removed = []) rfl rfl (fun _ => rfl)
  · intro k hk
    exact harch (fun r => k ∈ r.store) hk hk (fun d => mem_copyKey hk)
  · simp [mainMongodump, h0]
  · intro k hk
    simp only [mainMongodump, if_neg h0]
    exact mem_copyKey hk

/-- Claim C4: the orchestrator queries the destination first and stops
successfully (no copy, no deletion) on a match; otherwise it queries the
source and fails without copying when there is no source match; otherwise
it copies the matched key to the substituted destination name and only
then, and only when `max_backups > 0`, prunes the destination directory of
the post-copy store. -/
theorem c4_control_flow (mode : Mode) (now : Timestamp) (srcDir dstDir : Str)
    (maxB : Int) (store : List Str) :
    ((∃ b, getBackupFromThisPeriod mode now
        (dropTrailingSlashes dstDir ++ ['/']) store = some b) →
      mainArchive mode now srcDir dstDir maxB store = ⟨0, none, [], store⟩) ∧
    (getBackupFromThisPeriod mode now
        (dropTrailingSlashes dstDir ++ ['/']) store = none →
     getBackupFromThisPeriod mode now
        (dropTrailingSlashes srcDir ++ ['/']) store = none →
      mainArchive mode now srcDir dstDir maxB store = ⟨1, none, [], store⟩) ∧
    (∀ k, getBackupFromThisPeriod mode now
        (dropTrailingSlashes dstDir ++ ['/']) store = none →
      getBackupFromThisPeriod mode now
        (dropTrailingSlashes srcDir ++ ['/']) store = some k →
      (¬ 0 < maxB →
        mainArchive mode now srcDir dstDir maxB store =
          ⟨0, some (k, reSub (dropTrailingSlashes srcDir ++ ['/'])
              (dropTrailingSlashes dstDir ++ ['/']) k), [],
            copyKey store (reSub (dropTrailingSlashes srcDir ++ ['/'])
              (dropTrailingSlashes dstDir ++ ['/']) k)⟩) ∧
      (0 < maxB →
        mainArchive mode now srcDir dstDir maxB store =
          ⟨0, some (k, reSub (dropTrailingSlashes srcDir ++ ['/'])
              (dropTrailingSlashes dstDir ++ ['/']) k),
            (removeOldBackupsA maxB (dropTrailingSlashes dstDir ++ ['/'])
              (copyKey store (reSub (dropTrailingSlashes srcDir ++ ['/'])
                (dropTrailingSlashes dstDir ++ ['/']) k))).removed,
            (removeOldBackupsA maxB (dropTrailingSlashes dstDir ++ ['/'])
              (copyKey store (reSub (dropTrailingSlashes srcDir ++ ['/'])
                (dropTrailingSlashes dstDir ++ ['/']) k))).store⟩)) := by
  refine ⟨?_, ?_, ?_⟩
  · rintro ⟨b, hb⟩
    exact mainArchive_dst_some hb
  · intro hd hs
    exact mainArchive_no_match hd hs
  · intro k hd hs
    exact ⟨fun hmb => mainArchive_copy_nonpos hd hs hmb,
           fun hmb => mainArchive_copy_pos hd hs hmb⟩

/-- Witness for C6 at a concrete listing: the first structural match is
returned even though a more recent matching key appears later. -/
theorem c6_first_match_witness :
    getBackupFromThisPeriod .daily ⟨2024, 1, 2, 3, 4, 5⟩ ("d/".data)
      ["d/x".data, "d/2024-01-02_05-00-00.gz".data,
       "d/2024-01-02_23-00-00.gz".data] =
      some ("d/2024-01-02_05-00-00.gz".data) :=
  ((c6_first_match .daily ⟨2024, 1, 2, 3, 4, 5⟩ ("d/".data)
      ["d/x".data, "d/2024-01-02_05-00-00.gz".data,
       "d/2024-01-02_23-00-00.gz".data]).1
    ("d/2024-01-02_05-00-00.gz".data)).mpr
    ⟨["d/x".data], ["d/2024-01-02_23-00-00.gz".data],
      by decide, by decide, by decide⟩

/-- Witness for C8 at a concrete store: the stored key survives an archive
run and a mongodump run configured with `max_backups = 0`. -/
theorem c8_zero_max_backups_witness :
    ("a/2024-01-01_00-00-00.gz".data ∈ ["a/2024-01-01_00-00-00.gz".data]) ∧
    "a/2024-01-01_00-00-00.gz".data ∈
      (mainArchive .daily ⟨2024, 1, 2, 3, 4, 5⟩ ("a".data) ("b".data) 0
        ["a/2024-01-01_00-00-00.gz".data]).store ∧
    "a/2024-01-01_00-00-00.gz".data ∈
      (mainMongodump ⟨2024, 1, 2, 3, 4, 5⟩ ("a".data) 0
        ["a/2024-01-01_00-00-00.gz".data]).store :=
  ⟨by decide,
   (c8_zero_max_backups .daily ⟨2024, 1, 2, 3, 4, 5⟩ ("a".data) ("b".data)
      ("a".data) ["a/2024-01-01_00-00-00.gz".data]).2.1 _ (by decide),
   (c8_zero_max_backups .daily ⟨2024, 1, 2, 3, 4, 5⟩ ("a".data) ("b".data)
      ("a".data) ["a/2024-01-01_00-00-00.gz".data]).2.2.2 _ (by decide)⟩

/-- Witness for C4 at a concrete run (spec Scenario C): no destination
match and no source match for the current period makes the run fail
without copying or deleting. -/
theorem c4_control_flow_witness :
    getBackupFromThisPeriod .daily ⟨2024, 3, 1, 10, 0, 0⟩
      (dropTrailingSlashes ("dest".data) ++ ['/'])
      ["src/2024-02-28_23-59-59.gz".data] = none ∧
    getBackupFromThisPeriod .daily ⟨2024, 3, 1, 10, 0, 0⟩
      (dropTrailingSlashes ("src".data) ++ ['/'])
      ["src/2024-02-28_23-59-59.gz".data] = none ∧
    mainArchive .daily ⟨2024, 3, 1, 10, 0, 0⟩ ("src".data) ("dest".data) 5
      ["src/2024-02-28_23-59-59.gz".data] =
      ⟨1, none, [], ["src/2024-02-28_23-59-59.gz".data]⟩ :=
  ⟨by decide, by decide,
   (c4_control_flow .daily ⟨2024, 3, 1, 10, 0, 0⟩ ("src".data) ("dest".data)
      5 ["src/2024-02-28_23-59-59.gz".data]).2.1 (by decide) (by decide)⟩

/-! ### Occurrence and substitution lemmas -/

/-- `pat` occurs as a contiguous substring of the argument. -/
def occursIn (pat : Str) : Str → Bool
  | [] => pat.isEmpty
  | c :: rest => pat.isPrefixOf (c :: rest) || occursIn pat rest

lemma reSubAux_of_not_occurs {pat rep : Str} :
    ∀ (fuel : Nat) (s : Str), occursIn pat s = false →
      reSubAux pat rep fuel s = s := by
  intro fuel
  induction fuel with
  | zero =>
    intro s _
    cases s <;> rfl
  | succ n ih =>
    intro s hs
    cases s with
    | nil => rfl
    | cons c t =>
      unfold occursIn at hs
      rw [Bool.or_eq_false_iff] at hs
      unfold reSubAux
      rw [if_neg (by simp [hs.1])]
      rw [ih t hs.2]

lemma reSubAux_succ_cons (pat rep : Str) (fuel : Nat) (c : Char) (rest : Str) :
    reSubAux pat rep (fuel + 1) (c :: rest) =
      if pat ≠ [] ∧ pat.isPrefixOf (c :: rest) = true then
        rep ++ reSubAux pat rep fuel ((c :: rest).drop pat.length)
      else c :: reSubAux pat rep fuel rest := rfl

lemma reSub_append_of_not_occurs {pat rep rest : Str} (hpat : pat ≠ [])
    (h : occursIn pat rest = false) :
    reSub pat rep (pat ++ rest) = rep ++ rest := by
  cases pat with
  | nil => exact absurd rfl hpat
  | cons p ps =>
    unfold reSub
    rw [show ((p :: ps) ++ rest).length = (ps.length + rest.length) + 1 by
      simp [List.length_append]]
    rw [show (p :: ps) ++ rest = p :: (ps ++ rest) from rfl]
    rw [reSubAux_succ_cons]
    rw [show p :: (ps ++ rest) = (p :: ps) ++ rest from rfl]
    rw [if_pos ⟨hpat, isPrefixOf_append _ _⟩]
    rw [List.drop_left]
    rw [reSubAux_of_not_occurs _ rest h]

/-! ### Claim C2: destination key computation -/

/-- Counterexample to claim C2: for a matched key in which the source
directory text reoccurs after the leading segment, `re.sub` also rewrites
the later occurrence, so the destination key is not
`destination_prefix ++ filename` even though the matched key has the form
`source_prefix ++ filename`. -/
theorem c2_counterexample :
    (mainArchive .daily ⟨2024, 1, 2, 10, 0, 0⟩ ("a".data) ("b".data) 0
        ["a/2024-01-02_03-04-05.gza/x".data]).copied =
      some ("a/2024-01-02_03-04-05.gza/x".data,
            "b/2024-01-02_03-04-05.gzb/x".data) ∧
    "b/2024-01-02_03-04-05.gzb/x".data ≠
      "b/".data ++ "2024-01-02_03-04-05.gza/x".data :=
  ⟨by decide, by decide⟩

/-- Claim C2 (amended): the destination key is
`re.sub(source_dir, dest_dir, name)`, which replaces every occurrence of
the source directory text; when the matched key is
`source_prefix ++ filename` and the source directory text does not reoccur
inside `filename`, the destination key is `destination_prefix ++ filename`. -/
theorem c2_amended (mode : Mode) (now : Timestamp) (srcDir dstDir : Str)
    (maxB : Int) (store : List Str) (k d : Str)
    (hc : (mainArchive mode now srcDir dstDir maxB store).copied = some (k, d)) :
    d = reSub (dropTrailingSlashes srcDir ++ ['/'])
        (dropTrailingSlashes dstDir ++ ['/']) k ∧
    ∀ rest, k = (dropTrailingSlashes srcDir ++ ['/']) ++ rest →
      occursIn (dropTrailingSlashes srcDir ++ ['/']) rest = false →
      d = (dropTrailingSlashes dstDir ++ ['/']) ++ rest := by
  have hmain : d = reSub (dropTrailingSlashes srcDir ++ ['/'])
      (dropTrailingSlashes dstDir ++ ['/']) k := by
    cases hd : getBackupFromThisPeriod mode now
        (dropTrailingSlashes dstDir ++ ['/']) store with
    | some b =>
      rw [mainArchive_dst_some hd] at hc
      simp at hc
    | none =>
      cases hs : getBackupFromThisPeriod mode now
          (dropTrailingSlashes srcDir ++ ['/']) store with
      | none =>
        rw [mainArchive_no_match hd hs] at hc
        simp at hc
      | some k' =>
        by_cases hmb : 0 < maxB
        · rw [mainArchive_copy_pos hd hs hmb] at hc
          obtain ⟨rfl, h2⟩ : k' = k ∧ _ = d := by simpa using hc
          exact h2.symm
        · rw [mainArchive_copy_nonpos hd hs hmb] at hc
          obtain ⟨rfl, h2⟩ : k' = k ∧ _ = d := by simpa using hc
          exact h2.symm
  refine ⟨hmain, ?_⟩
  rintro rest rfl hocc
  rw [hmain]
  exact reSub_append_of_not_occurs (by simp) hocc

/-- Witness for the amended C2 at a concrete benign run (spec Scenario A):
source directory text occurring only as the leading segment gives the
expected destination key. -/
theorem c2_amended_witness :
    (mainArchive .daily ⟨2024, 1, 2, 10, 0, 0⟩ ("a".data) ("b".data) 0
        ["a/2024-01-02_03-04-05.gz".data]).copied =
      some ("a/2024-01-02_03-04-05.gz".data,
            "b/2024-01-02_03-04-05.gz".data) ∧
    "b/2024-01-02_03-04-05.gz".data =
      (dropTrailingSlashes ("b".data) ++ ['/']) ++
        "2024-01-02_03-04-05.gz".data :=
  ⟨by decide,
   (c2_amended .daily ⟨2024, 1, 2, 10, 0, 0⟩ ("a".data) ("b".data) 0
      ["a/2024-01-02_03-04-05.gz".data] ("a/2024-01-02_03-04-05.gz".data)
      ("b/2024-01-02_03-04-05.gz".data) (by decide)).2
     ("2024-01-02_03-04-05.gz".data) (by decide) (by decide)⟩

/-! ### Claim C3: anchoring of the period pattern -/

lemma matchesPeriod_decomp (mode : Mode) (now : Timestamp) (dir key : Str) :
    matchesPeriod mode now dir key = true ↔
      ∃ t, key = dir ++ periodLit mode now ++ t ∧ tailPat mode t = true := by
  unfold matchesPeriod
  rw [Bool.and_eq_true]
  constructor
  · rintro ⟨hp, ht⟩
    obtain ⟨t, rfl⟩ := (isPrefixOf_iff_exists _ _).mp hp
    refine ⟨t, rfl, ?_⟩
    rwa [List.drop_left] at ht
  · rintro ⟨t, rfl, ht⟩
    exact ⟨isPrefixOf_append _ _, by rwa [List.drop_left]⟩

lemma tailPat_daily_decomp (cs : Str) :
    tailPat .daily cs = true ↔
      ∃ x1 x2 x4 x5 x7 x8 c rest,
        cs = x1 :: x2 :: '-' :: x4 :: x5 :: '-' :: x7 :: x8 :: c :: 'g' :: 'z'
          :: rest ∧
        x1.isDigit = true ∧ x2.isDigit = true ∧ x4.isDigit = true ∧
        x5.isDigit = true ∧ x7.isDigit = true ∧ x8.isDigit = true ∧
        c ≠ '\n' := by
  rw [show tailPat .daily cs = tailPatDaily cs from rfl]
  constructor
  · intro h
    unfold tailPatDaily at h
    split at h
    · next x1 x2 x3 x4 x5 x6 x7 x8 c g z rest =>
      simp only [Bool.and_eq_true, decide_eq_true_eq] at h
      obtain ⟨⟨⟨⟨⟨⟨⟨⟨⟨⟨h1, h2⟩, h3⟩, h4⟩, h5⟩, h6⟩, h7⟩, h8⟩, hc⟩, hg⟩, hz⟩ := h
      subst h3; subst h6; subst hg; subst hz
      exact ⟨x1, x2, x4, x5, x7, x8, c, rest, rfl, h1, h2, h4, h5, h7, h8, hc⟩
    · exact absurd h (by simp)
  · rintro ⟨x1, x2, x4, x5, x7, x8, c, rest, rfl, h1, h2, h4, h5, h7, h8, hc⟩
    simp [tailPatDaily, h1, h2, h4, h5, h7, h8, hc]

lemma tailPat_monthly_decomp (cs : Str) :
    tailPat .monthly cs = true ↔
      ∃ y1 y2 x1 x2 x4 x5 x7 x8 c rest,
        cs = y1 :: y2 :: '_' :: x1 :: x2 :: '-' :: x4 :: x5 :: '-' :: x7 :: x8
          :: c :: 'g' :: 'z' :: rest ∧
        y1.isDigit = true ∧ y2.isDigit = true ∧ x1.isDigit = true ∧
        x2.isDigit = true ∧ x4.isDigit = true ∧ x5.isDigit = true ∧
        x7.isDigit = true ∧ x8.isDigit = true ∧ c ≠ '\n' := by
  rw [show tailPat .monthly cs = tailPatMonthly cs from rfl]
  constructor
  · intro h
    unfold tailPatMonthly at h
    split at h
    · next y1 y2 y3 x1 x2 x3 x4 x5 x6 x7 x8 c g z rest =>
      simp only [Bool.and_eq_true, decide_eq_true_eq] at h
      obtain ⟨⟨⟨⟨⟨⟨⟨⟨⟨⟨⟨⟨⟨hy1, hy2⟩, hy3⟩, h1⟩, h2⟩, h3⟩, h4⟩, h5⟩, h6⟩,
        h7⟩, h8⟩, hc⟩, hg⟩, hz⟩ := h
      subst hy3; subst h3; subst h6; subst hg; subst hz
      exact ⟨y1, y2, x1, x2, x4, x5, x7, x8, c, rest, rfl,
        hy1, hy2, h1, h2, h4, h5, h7, h8, hc⟩
    · exact absurd h (by simp)
  · rintro ⟨y1, y2, x1, x2, x4, x5, x7, x8, c, rest, rfl,
      hy1, hy2, h1, h2, h4, h5, h7, h8, hc⟩
    simp [tailPatMonthly, hy1, hy2, h1, h2, h4, h5, h7, h8, hc]

/-- Counterexample to claim C3: a key with `X` in place of the `.` before
`gz` and with trailing characters after `gz` still matches the daily period
pattern (`re.match` anchors only at the start and the `.` in the pattern is
an unescaped wildcard). -/
theorem c3_counterexample :
    matchesPeriod .daily ⟨2024, 1, 2, 3, 4, 5⟩ ("a/".data)
      ("a/2024-01-02_03-04-05Xgzqq".data) = true := by decide

/-- Claim C3 (amended): the period pattern is anchored at the start only:
a key matches iff, immediately after the supplied directory text, it carries
the period's fixed date fields, then two-digit wildcard time fields, then
one arbitrary non-newline character followed by the literal `gz` — with
arbitrary trailing characters allowed after that. -/
theorem c3_amended (now : Timestamp) (dir key : Str) :
    (matchesPeriod .daily now dir key = true ↔
       ∃ x1 x2 x4 x5 x7 x8 c rest,
         key = dir ++ periodLit .daily now ++
           (x1 :: x2 :: '-' :: x4 :: x5 :: '-' :: x7 :: x8 :: c :: 'g' :: 'z'
             :: rest) ∧
         x1.isDigit = true ∧ x2.isDigit = true ∧ x4.isDigit = true ∧
         x5.isDigit = true ∧ x7.isDigit = true ∧ x8.isDigit = true ∧
         c ≠ '\n') ∧
    (matchesPeriod .monthly now dir key = true ↔
       ∃ y1 y2 x1 x2 x4 x5 x7 x8 c rest,
         key = dir ++ periodLit .monthly now ++
           (y1 :: y2 :: '_' :: x1 :: x2 :: '-' :: x4 :: x5 :: '-' :: x7 :: x8
             :: c :: 'g' :: 'z' :: rest) ∧
         y1.isDigit = true ∧ y2.isDigit = true ∧ x1.isDigit = true ∧
         x2.isDigit = true ∧ x4.isDigit = true ∧ x5.isDigit = true ∧
         x7.isDigit = true ∧ x8.isDigit = true ∧ c ≠ '\n') := by
  constructor
  · rw [matchesPeriod_decomp]
    constructor
    · rintro ⟨t, rfl, ht⟩
      obtain ⟨x1, x2, x4, x5, x7, x8, c, rest, rfl, hs⟩ :=
        (tailPat_daily_decomp t).mp ht
      exact ⟨x1, x2, x4, x5, x7, x8, c, rest, rfl, hs⟩
    · rintro ⟨x1, x2, x4, x5, x7, x8, c, rest, rfl, hs⟩
      exact ⟨_, rfl, (tailPat_daily_decomp _).mpr
        ⟨x1, x2, x4, x5, x7, x8, c, rest, rfl, hs⟩⟩
  · rw [matchesPeriod_decomp]
    constructor
    · rintro ⟨t, rfl, ht⟩
      obtain ⟨y1, y2, x1, x2, x4, x5, x7, x8, c, rest, rfl, hs⟩ :=
        (tailPat_monthly_decomp t).mp ht
      exact ⟨y1, y2, x1, x2, x4, x5, x7, x8, c, rest, rfl, hs⟩
    · rintro ⟨y1, y2, x1, x2, x4, x5, x7, x8, c, rest, rfl, hs⟩
      exact ⟨_, rfl, (tailPat_monthly_decomp _).mpr
        ⟨y1, y2, x1, x2, x4, x5, x7, x8, c, rest, rfl, hs⟩⟩

/-- Witness for the amended C3: the counterexample key decomposes as the
amended characterization requires. -/
theorem c3_amended_witness :
    ∃ x1 x2 x4 x5 x7 x8 c rest,
      ("a/2024-01-02_03-04-05Xgzqq".data) =
        ("a/".data) ++ periodLit .daily ⟨2024, 1, 2, 3, 4, 5⟩ ++
          (x1 :: x2 :: '-' :: x4 :: x5 :: '-' :: x7 :: x8 :: c :: 'g' :: 'z'
            :: rest) ∧
      x1.isDigit = true ∧ x2.isDigit = true ∧ x4.isDigit = true ∧
      x5.isDigit = true ∧ x7.isDigit = true ∧ x8.isDigit = true ∧
      c ≠ '\n' :=
  (c3_amended ⟨2024, 1, 2, 3, 4, 5⟩ ("a/".data)
    ("a/2024-01-02_03-04-05Xgzqq".data)).1.mp (by decide)

/-! ### Claim C10: equivalence of the two pruner implementations -/

lemma dropTrailingSlashes_eq_self {s : Str} (h : s.getLast? ≠ some '/') :
    dropTrailingSlashes s = s := by
  unfold dropTrailingSlashes
  cases hs : s.reverse with
  | nil =>
    have hnil : s = [] := by
      have := congrArg List.reverse hs
      simpa using this
    simp [hnil]
  | cons c t =>
    have hc : ¬ (c = '/') := by
      intro hc
      apply h
      rw [← List.head?_reverse, hs, hc]
      rfl
    have hs' : s = (c :: t).reverse := by
      have h2 := congrArg List.reverse hs
      rwa [List.reverse_reverse] at h2
    have hd : List.dropWhile (fun x => decide (x = '/')) (c :: t) = c :: t := by
      simp [List.dropWhile_cons, hc]
    rw [hd]
    exact hs'.symm

/-- Counterexample to claim C10: on a directory text with a trailing path
separator the two `remove_old_backups` implementations disagree — the
archive script normalizes the separator away before building the strptime
format and deletes the older backup, while the mongodump script builds a
double-separator format that parses nothing and deletes nothing. -/
theorem c10_counterexample :
    (removeOldBackupsA 1 ("p/".data)
        ["p/2024-01-02_03-04-05.gz".data, "p/2024-01-01_03-04-05.gz".data])
      ≠
    (removeOldBackupsM 1 ("p/".data)
        ["p/2024-01-02_03-04-05.gz".data, "p/2024-01-01_03-04-05.gz".data]) :=
  by decide

/-- Claim C10 (amended): the two `remove_old_backups` implementations agree
for every listing and every `max_backups` value whenever the directory text
does not end in a path separator (in particular when it is empty); they can
differ when it does. -/
theorem c10_amended (pfx : Str) (maxB : Int) (store : List Str)
    (h : pfx.getLast? ≠ some '/') :
    removeOldBackupsA maxB pfx store = removeOldBackupsM maxB pfx store := by
  unfold removeOldBackupsA removeOldBackupsM fmtPreA fmtPreM
  rw [dropTrailingSlashes_eq_self h]

/-- Witness for the amended C10 at a concrete separator-free directory. -/
theorem c10_amended_witness :
    ("p".data).getLast? ≠ some '/' ∧
    removeOldBackupsA 1 ("p".data)
        ["p/2024-01-02_03-04-05.gz".data, "p/2024-01-01_03-04-05.gz".data] =
      removeOldBackupsM 1 ("p".data)
        ["p/2024-01-02_03-04-05.gz".data, "p/2024-01-01_03-04-05.gz".data] :=
  ⟨by decide,
   c10_amended ("p".data) 1
     ["p/2024-01-02_03-04-05.gz".data, "p/2024-01-01_03-04-05.gz".data]
     (by decide)⟩

lemma isDigit_dig (d : Nat) : (dig d).isDigit = true := by
  unfold dig
  split_ifs <;> decide

lemma digitVal_dig {d : Nat} (h : d ≤ 9) : digitVal (dig d) = d := by
  unfold dig
  split_ifs with h0 h1 h2 h3 h4 h5 h6 h7 h8
  · subst h0; decide
  · subst h1; decide
  · subst h2; decide
  · subst h3; decide
  · subst h4; decide
  · subst h5; decide
  · subst h6; decide
  · subst h7; decide
  · subst h8; decide
  · have h9 : d = 9 := by omega
    subst h9; decide

lemma natOfDigits_pad2 {n : Nat} (h : n ≤ 99) : natOfDigits (pad2 n) = n := by
  unfold natOfDigits pad2
  simp only [List.foldl_cons, List.foldl_nil]
  rw [digitVal_dig (by omega), digitVal_dig (by omega)]
  omega

lemma natOfDigits_pad4 {n : Nat} (h : n ≤ 9999) : natOfDigits (pad4 n) = n := by
  unfold natOfDigits pad4
  simp only [List.foldl_cons, List.foldl_nil]
  rw [digitVal_dig (by omega), digitVal_dig (by omega),
      digitVal_dig (by omega), digitVal_dig (by omega)]
  omega

lemma length_pad2 (n : Nat) : (pad2 n).length = 2 := rfl

lemma length_pad4 (n : Nat) : (pad4 n).length = 4 := rfl

lemma daysInMonth_le (y m : Nat) : daysInMonth y m ≤ 31 := by
  unfold daysInMonth
  split_ifs <;> omega

lemma takeWhile_pad2 (n : Nat) (sep : Char) {rest : Str}
    (hsep : sep.isDigit = false) :
    (pad2 n ++ sep :: rest).takeWhile Char.isDigit = pad2 n := by
  unfold pad2
  simp [List.takeWhile_cons, isDigit_dig, hsep]

lemma dropWhile_pad2 (n : Nat) (sep : Char) {rest : Str}
    (hsep : sep.isDigit = false) :
    (pad2 n ++ sep :: rest).dropWhile Char.isDigit = sep :: rest := by
  unfold pad2
  simp [List.dropWhile_cons, isDigit_dig, hsep]

lemma takeWhile_pad4 (n : Nat) (sep : Char) {rest : Str}
    (hsep : sep.isDigit = false) :
    (pad4 n ++ sep :: rest).takeWhile Char.isDigit = pad4 n := by
  unfold pad4
  simp [List.takeWhile_cons, isDigit_dig, hsep]

lemma dropWhile_pad4 (n : Nat) (sep : Char) {rest : Str}
    (hsep : sep.isDigit = false) :
    (pad4 n ++ sep :: rest).dropWhile Char.isDigit = sep :: rest := by
  unfold pad4
  simp [List.dropWhile_cons, isDigit_dig, hsep]

lemma expectChar_cons_self (c : Char) (rest : Str) :
    expectChar c (c :: rest) = some rest := by simp [expectChar]

lemma parseField_pad2 {lo hi n : Nat} {rest : Str} (sep : Char)
    (h1 : lo ≤ n) (h2 : n ≤ hi) (h99 : n ≤ 99) (hsep : sep.isDigit = false) :
    parseField lo hi (pad2 n ++ sep :: rest) = some (n, sep :: rest) := by
  simp only [parseField]
  rw [takeWhile_pad2 n sep hsep, dropWhile_pad2 n sep hsep]
  rw [natOfDigits_pad2 h99]
  rw [if_pos ⟨Or.inr (length_pad2 n), h1, h2⟩]

/-- Claim C7: for every valid second-granularity timestamp, parsing the
string produced by formatting it with the fixed name format
`'%Y-%m-%d_%H-%M-%S.gz'` yields the timestamp back exactly. -/
theorem c7_roundtrip (ts : Timestamp) (hv : ts.Valid) :
    strptimeGz (formatTs ts) = some ts := by
  obtain ⟨hy1, hy2, hm1, hm2, hd1, hd2, hh, hmi, hs⟩ := hv
  have hd31 : ts.day ≤ 31 := le_trans hd2 (daysInMonth_le _ _)
  have hy0 : 1 ≤ ts.year := by omega
  simp only [formatTs, strptimeGz,
    takeWhile_pad4 ts.year '-' (by decide),
    dropWhile_pad4 ts.year '-' (by decide),
    length_pad4,
    natOfDigits_pad4 (show ts.year ≤ 9999 by omega),
    parseField_pad2 '-' hm1 hm2 (show ts.month ≤ 99 by omega) (by decide),
    parseField_pad2 '_' hd1 hd31 (show ts.day ≤ 99 by omega) (by decide),
    parseField_pad2 '-' (Nat.zero_le ts.hour) hh (show ts.hour ≤ 99 by omega)
      (by decide),
    parseField_pad2 '-' (Nat.zero_le ts.minute) hmi
      (show ts.minute ≤ 99 by omega) (by decide),
    parseField_pad2 '.' (Nat.zero_le ts.second) (show ts.second ≤ 61 by omega)
      (show ts.second ≤ 99 by omega) (by decide),
    expectChar_cons_self, Option.some_bind, if_true]
  simp [hy0, hd2, hs]

/-- Witness for C7 at a concrete valid timestamp (a leap-day boundary). -/
theorem c7_roundtrip_witness :
    (⟨2024, 2, 29, 23, 59, 59⟩ : Timestamp).Valid ∧
    strptimeGz (formatTs ⟨2024, 2, 29, 23, 59, 59⟩) =
      some ⟨2024, 2, 29, 23, 59, 59⟩ :=
  ⟨by decide, c7_roundtrip ⟨2024, 2, 29, 23, 59, 59⟩ (by decide)⟩

/-! ### Claim C9: the monthly pattern fixes only year and month -/

/-- Claim C9: in monthly mode the pattern fixes only `now`'s year and
month, leaving day, hour, minute and second as two-digit wildcards: a key
in the standard name format under the directory matches the current period
iff its year and month fields equal `now`'s. -/
theorem c9_monthly_pattern (now ts : Timestamp) (dir : Str)
    (hts : ts.Valid) (hnow : now.Valid) :
    matchesPeriod .monthly now dir (dir ++ formatTs ts) = true ↔
      ts.year = now.year ∧ ts.month = now.month := by
  obtain ⟨hty1, hty2, htm1, htm2, -, -, -, -, -⟩ := hts
  obtain ⟨hny1, hny2, hnm1, hnm2, -, -, -, -, -⟩ := hnow
  constructor
  · intro h
    obtain ⟨t, heq, -⟩ := (matchesPeriod_decomp _ _ _ _).mp h
    rw [List.append_assoc] at heq
    have heq2 := List.append_cancel_left heq
    unfold formatTs periodLit at heq2
    simp only [List.append_assoc, List.cons_append, List.singleton_append]
      at heq2
    obtain ⟨hy4, htail⟩ :=
      List.append_inj heq2 (by rw [length_pad4, length_pad4])
    have hyear : ts.year = now.year := by
      have hv := congrArg natOfDigits hy4
      rwa [natOfDigits_pad4 (by omega), natOfDigits_pad4 (by omega)] at hv
    simp only [List.cons.injEq, true_and] at htail
    obtain ⟨hm2eq, -⟩ :=
      List.append_inj htail (by simp [length_pad2])
    have hmonth : ts.month = now.month := by
      have hv := congrArg natOfDigits hm2eq
      rwa [natOfDigits_pad2 (by omega), natOfDigits_pad2 (by omega)] at hv
    exact ⟨hyear, hmonth⟩
  · rintro ⟨hy, hm⟩
    rw [matchesPeriod_decomp]
    refine ⟨pad2 ts.day ++ '_' :: (pad2 ts.hour ++ '-' :: (pad2 ts.minute ++
      '-' :: (pad2 ts.second ++ ['.', 'g', 'z']))), ?_, ?_⟩
    · simp [formatTs, periodLit, hy, hm, List.append_assoc]
    · apply (tailPat_monthly_decomp _).mpr
      refine ⟨dig (ts.day / 10), dig (ts.day % 10), dig (ts.hour / 10),
        dig (ts.hour % 10), dig (ts.minute / 10), dig (ts.minute % 10),
        dig (ts.second / 10), dig (ts.second % 10), '.', [], ?_,
        isDigit_dig _, isDigit_dig _, isDigit_dig _, isDigit_dig _,
        isDigit_dig _, isDigit_dig _, isDigit_dig _, isDigit_dig _,
        by decide⟩
      simp [pad2]

/-- Witness for C9 at the spec's monthly-boundary scenario: with `now` in
March 2024 the 2024-03-01 key matches and the 2024-02-29 key does not. -/
theorem c9_monthly_pattern_witness :
    (⟨2024, 3, 1, 0, 0, 0⟩ : Timestamp).Valid ∧
    (⟨2024, 3, 15, 0, 0, 0⟩ : Timestamp).Valid ∧
    matchesPeriod .monthly ⟨2024, 3, 15, 0, 0, 0⟩ ("d/".data)
      ("d/".data ++ formatTs ⟨2024, 3, 1, 0, 0, 0⟩) = true ∧
    matchesPeriod .monthly ⟨2024, 3, 15, 0, 0, 0⟩ ("d/".data)
      ("d/".data ++ formatTs ⟨2024, 2, 29, 0, 0, 0⟩) = false :=
  ⟨by decide, by decide,
   (c9_monthly_pattern ⟨2024, 3, 15, 0, 0, 0⟩ ⟨2024, 3, 1, 0, 0, 0⟩
      ("d/".data) (by decide) (by decide)).mpr ⟨rfl, rfl⟩,
   by decide⟩

/-! ### Pruner anatomy lemmas -/

lemma parseBackupKey_key {fmtPre k : Str} {b : Backup}
    (h : parseBackupKey fmtPre k = some b) : b.key = k := by
  unfold parseBackupKey at h
  split at h
  · obtain ⟨t, -, rfl⟩ := Option.map_eq_some'.mp h
    rfl
  · cases h

lemma parse_of_mem_allBackups {fmtPre : Str} {l : List Str} {b : Backup}
    (h : b ∈ allBackups fmtPre l) : parseBackupKey fmtPre b.key = some b := by
  obtain ⟨k, -, hk⟩ := List.mem_filterMap.mp h
  rw [parseBackupKey_key hk]
  exact hk

lemma pySuffix_sublist (k : Int) (l : List α) : (pySuffix k l).Sublist l := by
  unfold pySuffix
  split
  · exact List.drop_sublist _ _
  · exact List.drop_sublist _ _

lemma removed_key_parses {fmtPre pfx : Str} {maxB : Int} {store : List Str}
    {b : Backup} (h : b ∈ (removeOldCore fmtPre pfx maxB store).removed) :
    parseBackupKey fmtPre b.key = some b := by
  unfold removeOldCore at h
  have h2 : b ∈ sortBackups (allBackups fmtPre (listKeys pfx store)) :=
    (pySuffix_sublist _ _).mem h
  unfold sortBackups at h2
  exact parse_of_mem_allBackups ((List.perm_insertionSort _ _).mem_iff.mp h2)

lemma filterMap_filter_erase {f : Str → Option Backup} {p : Str → Bool}
    {a : Str} (ha : f a = none) :
    ∀ l : List Str, ((l.erase a).filter p).filterMap f =
      (l.filter p).filterMap f := by
  intro l
  induction l with
  | nil => rfl
  | cons b t ih =>
    by_cases hba : b = a
    · subst hba
      rw [List.erase_cons_head]
      rw [List.filter_cons]
      split
      · rw [List.filterMap_cons, ha]
      · rfl
    · rw [List.erase_cons_tail (by simpa using hba)]
      rw [List.filter_cons, List.filter_cons]
      split
      · rw [List.filterMap_cons, List.filterMap_cons]
        cases f b <;> simp [ih]
      · exact ih

/-- Claim C5: a key that fails to parse under the qualified name format is
silently excluded from retention: it is never among the removed records, it
always survives in the store, and deleting it from the listing leaves the
pruner's output unchanged (it is not counted toward the keep count).  The
embedding is total: the `except ValueError: pass` handler makes a parse
failure a filter, never an error. -/
theorem c5_unparsable_excluded (fmtPre pfx : Str) (maxB : Int)
    (store : List Str) (k : Str) (hp : parseBackupKey fmtPre k = none) :
    (∀ b ∈ (removeOldCore fmtPre pfx maxB store).removed, b.key ≠ k) ∧
    (k ∈ store → k ∈ (removeOldCore fmtPre pfx maxB store).store) ∧
    (removeOldCore fmtPre pfx maxB (store.erase k)).removed =
      (removeOldCore fmtPre pfx maxB store).removed := by
  have hne : ∀ b ∈ (removeOldCore fmtPre pfx maxB store).removed, b.key ≠ k := by
    intro b hb hbk
    have := removed_key_parses hb
    rw [hbk, hp] at this
    cases this
  refine ⟨hne, ?_, ?_⟩
  · intro hk
    unfold removeOldCore
    apply List.mem_filter.mpr
    refine ⟨hk, ?_⟩
    apply List.all_eq_true.mpr
    intro b hb
    exact decide_eq_true (hne b hb)
  · unfold removeOldCore listKeys allBackups
    rw [filterMap_filter_erase hp]

/-- Witness for C5 at the spec's Scenario D shape: `notes.txt` is never
deleted and its removal from the listing does not change the pruned set. -/
theorem c5_unparsable_excluded_witness :
    parseBackupKey ("d/".data) ("d/notes.txt".data) = none ∧
    (∀ b ∈ (removeOldCore ("d/".data) ("d/".data) 1
        ["d/notes.txt".data, "d/2024-01-02_00-00-00.gz".data,
         "d/2024-01-01_00-00-00.gz".data]).removed, b.key ≠ "d/notes.txt".data) ∧
    "d/notes.txt".data ∈ (removeOldCore ("d/".data) ("d/".data) 1
        ["d/notes.txt".data, "d/2024-01-02_00-00-00.gz".data,
         "d/2024-01-01_00-00-00.gz".data]).store :=
  ⟨by decide,
   (c5_unparsable_excluded ("d/".data) ("d/".data) 1
      ["d/notes.txt".data, "d/2024-01-02_00-00-00.gz".data,
       "d/2024-01-01_00-00-00.gz".data] ("d/notes.txt".data) (by decide)).1,
   (c5_unparsable_excluded ("d/".data) ("d/".data) 1
      ["d/notes.txt".data, "d/2024-01-02_00-00-00.gz".data,
       "d/2024-01-01_00-00-00.gz".data] ("d/notes.txt".data) (by decide)).2.1
     (by decide)⟩

/-! ### Claim C1: retention bound and the K-most-recent characterization -/

/-- `p` beats `q` in retention order: strictly more recent timestamp, or
equal timestamp and strictly earlier listing position (the stable
tie-break).  The retained records are exactly those beaten by fewer than
`keep_count` records. -/
def beats (p q : Nat × Backup) : Prop :=
  q.2.date.code < p.2.date.code ∨ (p.2.date.code = q.2.date.code ∧ p.1 < q.1)

instance : DecidableRel beats := fun p q => by unfold beats; infer_instance

/-- Weak (total) companion of `beats` used to sort indexed records. -/
def rE (p q : Nat × Backup) : Prop :=
  q.2.date.code < p.2.date.code ∨ (p.2.date.code = q.2.date.code ∧ p.1 ≤ q.1)

instance : DecidableRel rE := fun p q => by unfold rE; infer_instance

instance : IsTotal (Nat × Backup) rE := ⟨fun p q => by unfold rE; omega⟩

instance : IsTrans (Nat × Backup) rE := ⟨fun p q r => by unfold rE; omega⟩

lemma beats_asymm (p q : Nat × Backup) : beats p q → ¬ beats q p := by
  unfold beats; omega

lemma beats_irrefl (p : Nat × Backup) : ¬ beats p p := by
  unfold beats; omega

lemma mem_enumFrom_le {l : List Backup} :
    ∀ {n : Nat} {p : Nat × Backup}, p ∈ l.enumFrom n → n ≤ p.1 := by
  induction l with
  | nil => intro n p h; cases h
  | cons a t ih =>
    intro n p h
    rw [List.enumFrom_cons] at h
    rcases List.mem_cons.mp h with rfl | h2
    · exact le_refl n
    · exact le_trans (Nat.le_succ n) (ih h2)

lemma orderedInsert_enum (a : Backup) (i : Nat) :
    ∀ (s : List (Nat × Backup)), (∀ q ∈ s, i < q.1) →
      List.orderedInsert backupGe a (s.map Prod.snd) =
        (List.orderedInsert rE (i, a) s).map Prod.snd := by
  intro s
  induction s with
  | nil => intro _; rfl
  | cons q t ih =>
    intro hlt
    have hiq : i < q.1 := hlt q (by simp)
    rw [List.map_cons]
    simp only [List.orderedInsert]
    by_cases hc : backupGe a q.2
    · rw [if_pos hc, if_pos (by unfold backupGe at hc; unfold rE; dsimp only; omega)]
      simp
    · rw [if_neg hc, if_neg (by unfold backupGe at hc; unfold rE; dsimp only; omega)]
      rw [List.map_cons, ih (fun r hr => hlt r (by simp [hr]))]

lemma insertionSort_enum :
    ∀ (n : Nat) (l : List Backup),
      List.insertionSort backupGe l =
        (List.insertionSort rE (l.enumFrom n)).map Prod.snd := by
  intro n l
  induction l generalizing n with
  | nil => rfl
  | cons a t ih =>
    rw [List.enumFrom_cons]
    simp only [List.insertionSort]
    rw [ih (n + 1)]
    rw [orderedInsert_enum a n]
    intro q hq
    have h2 : q ∈ t.enumFrom (n + 1) :=
      (List.perm_insertionSort rE _).mem_iff.mp hq
    have := mem_enumFrom_le h2
    omega

lemma pairwise_beats_sortE (l : List Backup) :
    (List.insertionSort rE l.enum).Pairwise beats := by
  have hsorted : (List.insertionSort rE l.enum).Pairwise rE :=
    List.sorted_insertionSort rE _
  have hperm : List.Perm (List.insertionSort rE l.enum) l.enum :=
    List.perm_insertionSort rE _
  have hfst : ((List.insertionSort rE l.enum).map Prod.fst).Nodup := by
    have hr : (l.enum.map Prod.fst).Nodup := by
      rw [List.enum_map_fst]
      exact List.nodup_range _
    exact ((hperm.map Prod.fst).nodup_iff).mpr hr
  have hne : (List.insertionSort rE l.enum).Pairwise
      (fun p q => p.1 ≠ q.1) := List.pairwise_map.mp hfst
  exact (hsorted.and hne).imp (fun {p q} h => by
    unfold rE at h; unfold beats
    rcases h with ⟨h1, h2⟩
    rcases h1 with h1 | ⟨heq, hle⟩
    · exact Or.inl h1
    · exact Or.inr ⟨heq, by omega⟩)

lemma mem_take_iff_countP {α : Type} {s : α → α → Prop} [DecidableRel s]
    (hasym : ∀ p q, s p q → ¬ s q p) (hirr : ∀ p, ¬ s p p) :
    ∀ (l : List α) (K : Nat) (x : α), l.Pairwise s →
      (x ∈ l.take K ↔ x ∈ l ∧ l.countP (fun q => decide (s q x)) < K) := by
  intro l
  induction l with
  | nil => intro K x _; simp
  | cons a t ih =>
    intro K x hp
    obtain ⟨hpa, hpt⟩ := List.pairwise_cons.mp hp
    by_cases hxa : x = a
    · subst hxa
      have hc0 : (x :: t).countP (fun q => decide (s q x)) = 0 := by
        rw [List.countP_cons]
        rw [List.countP_eq_zero.mpr ?_]
        · simp [hirr x]
        · intro q hq
          simp [hasym x q (hpa q hq)]
      rw [hc0]
      cases K with
      | zero => simp
      | succ K' => simp [List.take_succ_cons]
    · cases K with
      | zero => simp
      | succ K' =>
        rw [List.take_succ_cons, List.mem_cons, List.mem_cons]
        have hiff := ih K' x hpt
        by_cases hxt : x ∈ t
        · have hsax : s a x := hpa x hxt
          rw [List.countP_cons, if_pos (decide_eq_true hsax)]
          constructor
          · rintro (rfl | h2)
            · exact absurd rfl hxa
            · obtain ⟨-, hcount⟩ := hiff.mp h2
              exact ⟨Or.inr hxt, by omega⟩
          · rintro ⟨-, hcount⟩
            exact Or.inr (hiff.mpr ⟨hxt, by omega⟩)
        · constructor
          · rintro (rfl | h2)
            · exact absurd rfl hxa
            · exact absurd (hiff.mp h2).1 hxt
          · rintro ⟨hx, -⟩
            rcases hx with rfl | hx'
            · exact absurd rfl hxa
            · exact absurd hx' hxt

lemma map_key_allBackups (fmtPre : Str) :
    ∀ l : List Str, (allBackups fmtPre l).map Backup.key =
      l.filter fun k => (parseBackupKey fmtPre k).isSome := by
  intro l
  induction l with
  | nil => rfl
  | cons k t ih =>
    unfold allBackups at ih ⊢
    rw [List.filterMap_cons, List.filter_cons]
    cases hp : parseBackupKey fmtPre k with
    | none => simp [hp, ih]
    | some b => simp [hp, ih, parseBackupKey_key hp]

lemma allBackups_filter (fmtPre : Str) (p : Str → Bool) :
    ∀ l : List Str, allBackups fmtPre (l.filter p) =
      (allBackups fmtPre l).filter fun b => p b.key := by
  intro l
  induction l with
  | nil => rfl
  | cons k t ih =>
    unfold allBackups at ih ⊢
    rw [List.filter_cons, List.filterMap_cons]
    cases hp : parseBackupKey fmtPre k with
    | none =>
      split
      · rw [List.filterMap_cons, hp, ih]
      · rw [ih]
    | some b =>
      rw [List.filter_cons, parseBackupKey_key hp]
      split
      · rw [List.filterMap_cons, hp, ih]
      · exact ih

lemma sortBackups_def (l : List Backup) :
    sortBackups l = List.insertionSort backupGe l := rfl

lemma pySuffix_nonneg {K : Int} (l : List α) (hK : 0 ≤ K) :
    pySuffix K l = l.drop K.toNat := by
  unfold pySuffix
  rw [if_pos hK]

lemma removeOldCore_removed_def (fmtPre pfx : Str) (maxB : Int)
    (store : List Str) :
    (removeOldCore fmtPre pfx maxB store).removed =
      pySuffix maxB (sortBackups (allBackups fmtPre (listKeys pfx store))) :=
  rfl

lemma removeOldCore_store_def (fmtPre pfx : Str) (maxB : Int)
    (store : List Str) :
    (removeOldCore fmtPre pfx maxB store).store =
      store.filter fun k =>
        (pySuffix maxB (sortBackups (allBackups fmtPre (listKeys pfx store)))).all
          fun b => decide (b.key ≠ k) :=
  rfl

lemma mem_take_sort_iff (before : List Backup) (K : Nat) (b : Backup) :
    b ∈ (List.insertionSort backupGe before).take K ↔
      ∃ i, (i, b) ∈ before.enum ∧
        before.enum.countP (fun q => decide (beats q (i, b))) < K := by
  have hperm : List.Perm (List.insertionSort rE before.enum) before.enum :=
    List.perm_insertionSort rE _
  have hpair := pairwise_beats_sortE before
  rw [show List.insertionSort backupGe before =
      (List.insertionSort rE before.enum).map Prod.snd from
    insertionSort_enum 0 before]
  rw [← List.map_take]
  rw [List.mem_map]
  constructor
  · rintro ⟨⟨i, b'⟩, hmem, hsnd⟩
    dsimp at hsnd
    subst hsnd
    have hm := (mem_take_iff_countP beats_asymm beats_irrefl _ K (i, b')
      hpair).mp hmem
    refine ⟨i, hperm.mem_iff.mp hm.1, ?_⟩
    rw [← hperm.countP_eq]
    exact hm.2
  · rintro ⟨i, hmem, hcount⟩
    refine ⟨(i, b), ?_, rfl⟩
    apply (mem_take_iff_countP beats_asymm beats_irrefl _ K (i, b) hpair).mpr
    refine ⟨hperm.mem_iff.mpr hmem, ?_⟩
    rw [hperm.countP_eq]
    exact hcount

lemma filter_keep_perm (before : List Backup) (K : Nat)
    (hkeys : (before.map Backup.key).Nodup) :
    List.Perm
      (before.filter fun b =>
        ((List.insertionSort backupGe before).drop K).all
          fun r => decide (r.key ≠ b.key))
      ((List.insertionSort backupGe before).take K) := by
  have hperm : List.Perm (List.insertionSort backupGe before) before :=
    List.perm_insertionSort _ _
  have hsortkeys :
      ((List.insertionSort backupGe before).map Backup.key).Nodup :=
    ((hperm.map _).nodup_iff).mpr hkeys
  have hsortnd : (List.insertionSort backupGe before).Nodup :=
    List.Nodup.of_map _ hsortkeys
  have hsplitnd : ((List.insertionSort backupGe before).take K ++
      (List.insertionSort backupGe before).drop K).Nodup := by
    rw [List.take_append_drop]
    exact hsortnd
  have hdisj := List.disjoint_of_nodup_append hsplitnd
  have hkeep : ∀ b ∈ (List.insertionSort backupGe before).take K,
      (((List.insertionSort backupGe before).drop K).all
        fun r => decide (r.key ≠ b.key)) = true := by
    intro b hb
    apply List.all_eq_true.mpr
    intro r hr
    apply decide_eq_true
    intro hkeq
    have hrs : r ∈ List.insertionSort backupGe before :=
      (List.drop_sublist _ _).subset hr
    have hbs : b ∈ List.insertionSort backupGe before :=
      (List.take_sublist _ _).subset hb
    have hrb : r = b := List.inj_on_of_nodup_map hsortkeys hrs hbs hkeq
    subst hrb
    exact hdisj hb hr
  have hrem : ∀ r ∈ (List.insertionSort backupGe before).drop K,
      (((List.insertionSort backupGe before).drop K).all
        fun q => decide (q.key ≠ r.key)) = false := by
    intro r hr
    apply Bool.eq_false_iff.mpr
    intro hall
    have := List.all_eq_true.mp hall r hr
    simp at this
  have h1 := (hperm.filter (fun b =>
    ((List.insertionSort backupGe before).drop K).all
      fun r => decide (r.key ≠ b.key))).symm
  have h2 : (List.insertionSort backupGe before).filter (fun b =>
      ((List.insertionSort backupGe before).drop K).all
        fun r => decide (r.key ≠ b.key)) =
      ((List.insertionSort backupGe before).take K ++
        (List.insertionSort backupGe before).drop K).filter (fun b =>
      ((List.insertionSort backupGe before).drop K).all
        fun r => decide (r.key ≠ b.key)) := by
    rw [List.take_append_drop]
  have h3 : (List.filter (fun b =>
      ((List.insertionSort backupGe before).drop K).all
        fun r => decide (r.key ≠ b.key))
      ((List.insertionSort backupGe before).drop K)) = [] :=
    List.filter_eq_nil_iff.mpr (fun r hr => by rw [hrem r hr]; simp)
  rw [h2, List.filter_append, List.filter_eq_self.mpr hkeep, h3,
      List.append_nil] at h1
  exact h1

/-- Claim C1: over a listing with distinct keys and `keep_count = K ≥ 0`,
after the pruner runs: the number of remaining parsable records under the
prefix is `min(K, count before)`; a record is retained iff fewer than `K`
parsable records beat it (strictly more recent timestamp, or equal
timestamp and earlier listing position — the `K` most recent with stable
ties); and the returned list holds exactly the removed records. -/
theorem c1_retention (fmtPre pfx : Str) (K : Int) (store : List Str)
    (hnd : store.Nodup) (hK : 0 ≤ K) :
    (allBackups fmtPre (listKeys pfx
        (removeOldCore fmtPre pfx K store).store)).length =
      min K.toNat (allBackups fmtPre (listKeys pfx store)).length ∧
    (∀ b, b ∈ allBackups fmtPre (listKeys pfx
        (removeOldCore fmtPre pfx K store).store) ↔
      ∃ i, (i, b) ∈ (allBackups fmtPre (listKeys pfx store)).enum ∧
        (allBackups fmtPre (listKeys pfx store)).enum.countP
          (fun q => decide (beats q (i, b))) < K.toNat) ∧
    (∀ b, b ∈ (removeOldCore fmtPre pfx K store).removed ↔
      b ∈ allBackups fmtPre (listKeys pfx store) ∧
      b ∉ allBackups fmtPre (listKeys pfx
        (removeOldCore fmtPre pfx K store).store)) := by
  have hlistnd : (listKeys pfx store).Nodup := by
    unfold listKeys
    exact hnd.filter _
  have hkeys :
      ((allBackups fmtPre (listKeys pfx store)).map Backup.key).Nodup := by
    rw [map_key_allBackups]
    exact hlistnd.filter _
  have hremoved_eq : (removeOldCore fmtPre pfx K store).removed =
      (List.insertionSort backupGe
        (allBackups fmtPre (listKeys pfx store))).drop K.toNat := by
    rw [removeOldCore_removed_def, sortBackups_def, pySuffix_nonneg _ hK]
  have hstore_eq : (removeOldCore fmtPre pfx K store).store =
      store.filter fun k =>
        ((List.insertionSort backupGe
          (allBackups fmtPre (listKeys pfx store))).drop K.toNat).all
          fun b => decide (b.key ≠ k) := by
    rw [removeOldCore_store_def, sortBackups_def, pySuffix_nonneg _ hK]
  have hlist2 : listKeys pfx (store.filter fun k =>
      ((List.insertionSort backupGe
        (allBackups fmtPre (listKeys pfx store))).drop K.toNat).all
        fun b => decide (b.key ≠ k)) =
      (listKeys pfx store).filter fun k =>
        ((List.insertionSort backupGe
          (allBackups fmtPre (listKeys pfx store))).drop K.toNat).all
          fun b => decide (b.key ≠ k) := by
    unfold listKeys
    rw [List.filter_filter, List.filter_filter]
    congr 1
    funext k
    rw [Bool.and_comm]
  have hafter_eq : allBackups fmtPre (listKeys pfx
      (removeOldCore fmtPre pfx K store).store) =
      (allBackups fmtPre (listKeys pfx store)).filter fun b =>
        ((List.insertionSort backupGe
          (allBackups fmtPre (listKeys pfx store))).drop K.toNat).all
          fun r => decide (r.key ≠ b.key) := by
    rw [hstore_eq, hlist2, allBackups_filter]
  have hpermA2 : List.Perm (allBackups fmtPre (listKeys pfx
      (removeOldCore fmtPre pfx K store).store))
      ((List.insertionSort backupGe
        (allBackups fmtPre (listKeys pfx store))).take K.toNat) := by
    rw [hafter_eq]
    exact filter_keep_perm (allBackups fmtPre (listKeys pfx store))
      K.toNat hkeys
  have hperm : List.Perm (List.insertionSort backupGe
      (allBackups fmtPre (listKeys pfx store)))
      (allBackups fmtPre (listKeys pfx store)) :=
    List.perm_insertionSort _ _
  have hsortkeys : ((List.insertionSort backupGe
      (allBackups fmtPre (listKeys pfx store))).map Backup.key).Nodup :=
    ((hperm.map _).nodup_iff).mpr hkeys
  have hsortnd := List.Nodup.of_map _ hsortkeys
  have hsplitnd : ((List.insertionSort backupGe
      (allBackups fmtPre (listKeys pfx store))).take K.toNat ++
      (List.insertionSort backupGe
        (allBackups fmtPre (listKeys pfx store))).drop K.toNat).Nodup := by
    rw [List.take_append_drop]
    exact hsortnd
  have hdisj := List.disjoint_of_nodup_append hsplitnd
  refine ⟨?_, ?_, ?_⟩
  · rw [hpermA2.length_eq, List.length_take, hperm.length_eq]
  · intro b
    rw [hpermA2.mem_iff, mem_take_sort_iff]
  · intro b
    rw [hremoved_eq]
    constructor
    · intro hb
      refine ⟨hperm.mem_iff.mp ((List.drop_sublist _ _).subset hb), ?_⟩
      intro hafter
      exact hdisj (hpermA2.mem_iff.mp hafter) hb
    · rintro ⟨hbefore, hnot⟩
      have hsorted : b ∈ List.insertionSort backupGe
          (allBackups fmtPre (listKeys pfx store)) :=
        hperm.mem_iff.mpr hbefore
      rw [← List.take_append_drop K.toNat (List.insertionSort backupGe
        (allBackups fmtPre (listKeys pfx store)))] at hsorted
      rcases List.mem_append.mp hsorted with htake | hdrop
      · exact absurd (hpermA2.mem_iff.mpr htake) hnot
      · exact hdrop

/-- Witness for C1 at the spec's Scenario D shape (three dated objects,
one unparsable object, keep two). -/
theorem c1_retention_witness :
    (["d/notes.txt".data, "d/2024-01-03_00-00-00.gz".data,
      "d/2024-01-01_00-00-00.gz".data,
      "d/2024-01-02_00-00-00.gz".data] : List Str).Nodup ∧
    (0 : Int) ≤ 2 ∧
    (allBackups ("d/".data) (listKeys ("d/".data)
        (removeOldCore ("d/".data) ("d/".data) 2
          ["d/notes.txt".data, "d/2024-01-03_00-00-00.gz".data,
           "d/2024-01-01_00-00-00.gz".data,
           "d/2024-01-02_00-00-00.gz".data]).store)).length =
      min (2 : Int).toNat
        (allBackups ("d/".data) (listKeys ("d/".data)
          ["d/notes.txt".data, "d/2024-01-03_00-00-00.gz".data,
           "d/2024-01-01_00-00-00.gz".data,
           "d/2024-01-02_00-00-00.gz".data])).length :=
  ⟨by decide, by decide,
   (c1_retention ("d/".data) ("d/".data) 2
      ["d/notes.txt".data, "d/2024-01-03_00-00-00.gz".data,
       "d/2024-01-01_00-00-00.gz".data, "d/2024-01-02_00-00-00.gz".data]
      (by decide) (by decide)).1⟩
